import Mathlib

/-!
Verification of the limbed big-integer gadget in
src/plonk/circuit/bigint/bigint.rs.

Arbitrary-precision unsigned integers (num_bigint BigUint) are embedded as
Nat, signed big integers (BigInt) as Int, and the prime field E::Fr as
ZMod p for a prime p.  Fallible operations (unwrap, assert, panic) are
embedded with Option / Except.
-/

namespace FranklinBigint

/-- Fuel-bounded helper for the bit length of a natural number: for
fuel at least n, bitsAux fuel n is the number of binary digits of n. -/
def bitsAux : Nat → Nat → Nat
  | 0, _ => 0
  | _ + 1, 0 => 0
  | fuel + 1, n + 1 => bitsAux fuel ((n + 1) / 2) + 1

/-- Bit length of an arbitrary-precision unsigned integer, the embedding of
num_bigint BigUint::bits(): the position of the highest set bit plus one,
with 0 having bit length 0. -/
def natBits (n : Nat) : Nat := bitsAux n n

theorem bitsAux_lt_pow : ∀ fuel n, n ≤ fuel → n < 2 ^ bitsAux fuel n := by
  intro fuel
  induction fuel with
  | zero => intro n hn; interval_cases n; simp [bitsAux]
  | succ f ih =>
    intro n hn
    match n with
    | 0 => simp [bitsAux]
    | m + 1 =>
      have hrec : (m + 1) / 2 ≤ f := by omega
      have h := ih ((m + 1) / 2) hrec
      show m + 1 < 2 ^ (bitsAux f ((m + 1) / 2) + 1)
      rw [pow_succ]
      omega

theorem bitsAux_pow_le : ∀ fuel n, n ≤ fuel → 2 ^ bitsAux fuel n ≤ 2 * n + 1 := by
  intro fuel
  induction fuel with
  | zero => intro n hn; interval_cases n; simp [bitsAux]
  | succ f ih =>
    intro n hn
    match n with
    | 0 => simp [bitsAux]
    | m + 1 =>
      have hrec : (m + 1) / 2 ≤ f := by omega
      have h := ih ((m + 1) / 2) hrec
      show 2 ^ (bitsAux f ((m + 1) / 2) + 1) ≤ 2 * (m + 1) + 1
      match hc : bitsAux f ((m + 1) / 2) with
      | 0 => simp; omega
      | c + 1 =>
        rw [hc, pow_succ] at h
        rw [pow_succ, pow_succ]
        omega

theorem natBits_lt_pow (n : Nat) : n < 2 ^ natBits n :=
  bitsAux_lt_pow n n le_rfl

theorem natBits_pow_le (n : Nat) : 2 ^ natBits n ≤ 2 * n + 1 :=
  bitsAux_pow_le n n le_rfl

theorem natBits_zero : natBits 0 = 0 := rfl

theorem natBits_le_of_lt_pow {n k : Nat} (h : n < 2 ^ k) : natBits n ≤ k := by
  by_contra hlt
  push_neg at hlt
  have h1 : 2 ^ (k + 1) ≤ 2 ^ natBits n := Nat.pow_le_pow_right (by norm_num) hlt
  have h2 := natBits_pow_le n
  have h3 : 2 ^ (k + 1) = 2 * 2 ^ k := by rw [pow_succ]; ring
  omega

theorem lt_natBits_of_pow_le {n k : Nat} (h : 2 ^ k ≤ n) : k < natBits n := by
  by_contra hle
  push_neg at hle
  have h1 : 2 ^ natBits n ≤ 2 ^ k := Nat.pow_le_pow_right (by norm_num) hle
  have h2 := natBits_lt_pow n
  omega

/-- The limb-extraction loop shared by split_into_fixed_width_limbs and
split_into_fixed_number_of_limbs: n times, take fe mod 2 to the
bits_per_limb, push it, and shift fe right by bits_per_limb. -/
def extractLimbs : Nat → Nat → Nat → List Nat
  | _, _, 0 => []
  | fe, w, n + 1 => fe % 2 ^ w :: extractLimbs (fe >>> w) w n

/-- Embedding of split_into_fixed_width_limbs: the number of limbs comes from
fe.bits(), rounded up to a whole number of limbs, and the extracted
least-significant-first limbs are reversed before returning. -/
def split_into_fixed_width_limbs (fe : Nat) (bits_per_limb : Nat) : List Nat :=
  let num_limbs :=
    natBits fe / bits_per_limb + (if natBits fe % bits_per_limb ≠ 0 then 1 else 0)
  (extractLimbs fe bits_per_limb num_limbs).reverse

/-- Embedding of split_into_fixed_number_of_limbs: run the extraction loop
exactly num_limbs times and return least-significant-first, no reversal. -/
def split_into_fixed_number_of_limbs (fe bits_per_limb num_limbs : Nat) : List Nat :=
  extractLimbs fe bits_per_limb num_limbs

/-- The weighted-sum reading of a least-significant-first limb sequence. -/
def weightedSum (B : Nat) (vs : List Nat) : Nat :=
  ∑ i ∈ Finset.range vs.length, vs.getD i 0 * B ^ i

theorem extractLimbs_length (w : Nat) : ∀ n fe, (extractLimbs fe w n).length = n := by
  intro n
  induction n with
  | zero => intro fe; rfl
  | succ m ih => intro fe; simp [extractLimbs, ih]

theorem extractLimbs_lt_pow (w : Nat) :
    ∀ n fe, ∀ l ∈ extractLimbs fe w n, l < 2 ^ w := by
  intro n
  induction n with
  | zero => intro fe l hl; simp [extractLimbs] at hl
  | succ m ih =>
    intro fe l hl
    simp only [extractLimbs, List.mem_cons] at hl
    rcases hl with h | h
    · subst h; exact Nat.mod_lt _ (Nat.pos_pow_of_pos w (by norm_num))
    · exact ih (fe >>> w) l h

theorem mod_mul_decomp (fe d e : Nat) (hd : 0 < d) (he : 0 < e) :
    fe % (d * e) = d * (fe / d % e) + fe % d := by
  have k2 := Nat.div_add_mod (fe / d) e
  have hfe : fe = d * e * (fe / d / e) + (d * (fe / d % e) + fe % d) := by
    calc fe = d * (fe / d) + fe % d := (Nat.div_add_mod fe d).symm
    _ = d * (e * (fe / d / e) + fe / d % e) + fe % d := by rw [k2]
    _ = d * e * (fe / d / e) + (d * (fe / d % e) + fe % d) := by ring
  have hrem : d * (fe / d % e) + fe % d < d * e := by
    have h1 : fe / d % e < e := Nat.mod_lt _ he
    have h2 : fe % d < d := Nat.mod_lt _ hd
    calc d * (fe / d % e) + fe % d < d * (fe / d % e) + d := by omega
    _ = d * (fe / d % e + 1) := by ring
    _ ≤ d * e := Nat.mul_le_mul le_rfl (by omega)
  conv_lhs => rw [hfe]
  rw [Nat.mul_add_mod, Nat.mod_eq_of_lt hrem]

theorem extractLimbs_reverse_foldl (w : Nat) :
    ∀ n fe, (extractLimbs fe w n).reverse.foldl (fun acc l => acc * 2 ^ w + l) 0
      = fe % 2 ^ (w * n) := by
  intro n
  induction n with
  | zero => intro fe; simp [extractLimbs, Nat.mod_one]
  | succ m ih =>
    intro fe
    have hpow : (0:Nat) < 2 ^ w := Nat.pos_pow_of_pos w (by norm_num)
    have hpow2 : (0:Nat) < 2 ^ (w * m) := Nat.pos_pow_of_pos _ (by norm_num)
    calc (extractLimbs fe w (m + 1)).reverse.foldl (fun acc l => acc * 2 ^ w + l) 0
        = ((extractLimbs (fe >>> w) w m).reverse ++ [fe % 2 ^ w]).foldl
            (fun acc l => acc * 2 ^ w + l) 0 := by
          simp [extractLimbs]
    _ = ((extractLimbs (fe >>> w) w m).reverse.foldl (fun acc l => acc * 2 ^ w + l) 0)
          * 2 ^ w + fe % 2 ^ w := by
          rw [List.foldl_append]; rfl
    _ = fe >>> w % 2 ^ (w * m) * 2 ^ w + fe % 2 ^ w := by rw [ih]
    _ = 2 ^ w * (fe / 2 ^ w % 2 ^ (w * m)) + fe % 2 ^ w := by
          rw [Nat.shiftRight_eq_div_pow]; ring
    _ = fe % (2 ^ w * 2 ^ (w * m)) := (mod_mul_decomp fe _ _ hpow hpow2).symm
    _ = fe % 2 ^ (w * (m + 1)) := by rw [← pow_add]; ring_nf

theorem reverse_foldl_eq_weightedSum (B : Nat) :
    ∀ vs : List Nat, vs.reverse.foldl (fun acc l => acc * B + l) 0 = weightedSum B vs := by
  intro vs
  induction vs with
  | nil => simp [weightedSum]
  | cons v vs ih =>
    have hl : (v :: vs).reverse.foldl (fun acc l => acc * B + l) 0
        = (vs.reverse.foldl (fun acc l => acc * B + l) 0) * B + v := by
      rw [List.reverse_cons, List.foldl_append]; rfl
    rw [hl, ih]
    unfold weightedSum
    rw [List.length_cons, Finset.sum_range_succ']
    simp only [List.getD_cons_succ, List.getD_cons_zero, pow_zero, mul_one, pow_succ]
    have hsum2 : ∑ x ∈ Finset.range vs.length, vs.getD x 0 * (B ^ x * B)
        = (∑ x ∈ Finset.range vs.length, vs.getD x 0 * B ^ x) * B := by
      rw [Finset.sum_mul]
      apply Finset.sum_congr rfl
      intro x _
      ring
    rw [hsum2]

theorem extractLimbs_getD (w : Nat) :
    ∀ n i fe, i < n →
      (extractLimbs fe w n).getD i 0 = fe / 2 ^ (w * i) % 2 ^ w := by
  intro n
  induction n with
  | zero => intro i fe h; omega
  | succ m ih =>
    intro i fe h
    match i with
    | 0 => simp [extractLimbs]
    | j + 1 =>
      have hj : j < m := by omega
      calc (extractLimbs fe w (m + 1)).getD (j + 1) 0
          = (extractLimbs (fe >>> w) w m).getD j 0 := by simp [extractLimbs]
      _ = fe >>> w / 2 ^ (w * j) % 2 ^ w := ih j (fe >>> w) hj
      _ = fe / 2 ^ w / 2 ^ (w * j) % 2 ^ w := by rw [Nat.shiftRight_eq_div_pow]
      _ = fe / (2 ^ w * 2 ^ (w * j)) % 2 ^ w := by rw [Nat.div_div_eq_div_mul]
      _ = fe / 2 ^ (w * (j + 1)) % 2 ^ w := by rw [← pow_add]; ring_nf

theorem count_eq_ceil (s w : Nat) (hw : 0 < w) :
    s / w + (if s % w ≠ 0 then 1 else 0) = (s + w - 1) / w := by
  have hd := Nat.div_add_mod s w
  have hlt : s % w < w := Nat.mod_lt _ hw
  by_cases h : s % w = 0
  · simp only [h, ne_eq, not_true_eq_false, if_false, add_zero]
    obtain ⟨q, hq⟩ : ∃ q, s = w * q := ⟨s / w, by omega⟩
    subst hq
    have h1 : w * q + w - 1 = w * q + (w - 1) := by omega
    have h2 : (w * q + (w - 1)) / w = q + (w - 1) / w := by rw [Nat.mul_add_div hw]
    have h3 : (w - 1) / w = 0 := Nat.div_eq_of_lt (by omega)
    rw [h1, h2, h3, Nat.mul_div_cancel_left q hw, add_zero]
  · simp only [h, ne_eq, not_false_eq_true, if_true]
    have hge : 1 ≤ s % w := by omega
    have hkey : w * (s / w + 1) = w * (s / w) + w := by ring
    have h1 : s + w - 1 = w * (s / w + 1) + (s % w - 1) := by omega
    have h2 : (w * (s / w + 1) + (s % w - 1)) / w = s / w + 1 + (s % w - 1) / w := by
      rw [Nat.mul_add_div hw]
    have h3 : (s % w - 1) / w = 0 := Nat.div_eq_of_lt (by omega)
    rw [h1, h2, h3, add_zero]

theorem size_le_mul_count (s w : Nat) (hw : 0 < w) :
    s ≤ w * (s / w + if s % w ≠ 0 then 1 else 0) := by
  have hd := Nat.div_add_mod s w
  have hlt : s % w < w := Nat.mod_lt _ hw
  by_cases h : s % w = 0 <;>
    simp only [h, ne_eq, not_true_eq_false, not_false_eq_true, if_false, if_true,
      Nat.mul_add, Nat.mul_one, add_zero] <;>
    omega

theorem value_lt_pow_mul_count (v w : Nat) (hw : 0 < w) :
    v < 2 ^ (w * (natBits v / w + if natBits v % w ≠ 0 then 1 else 0)) := by
  have h1 := size_le_mul_count (natBits v) w hw
  have h2 : 2 ^ natBits v ≤ 2 ^ (w * (natBits v / w + if natBits v % w ≠ 0 then 1 else 0)) :=
    Nat.pow_le_pow_right (by norm_num) h1
  have h3 := natBits_lt_pow v
  omega

/-- Claim C2: for every nonnegative integer v and limb width w greater than 0,
split_into_fixed_width_limbs returns exactly the rounded-up number
(bit length of v) / w of limbs, ordered most-significant-limb-first, each limb
below 2 to the w, and the most-significant-first fold acc * 2 ^ w + limb
reassembles v exactly; in particular, the value 0x12345 with w = 16 splits
into the most-significant-first limbs 0x1, 0x2345. -/
theorem split_fixed_width_spec (v w : Nat) (hw : 0 < w) :
    (split_into_fixed_width_limbs v w).length = (natBits v + w - 1) / w ∧
    (∀ l ∈ split_into_fixed_width_limbs v w, l < 2 ^ w) ∧
    (split_into_fixed_width_limbs v w).foldl (fun acc l => acc * 2 ^ w + l) 0 = v ∧
    split_into_fixed_width_limbs 74565 16 = [1, 9029] := by
  unfold split_into_fixed_width_limbs
  refine ⟨?_, ?_, ?_, by decide⟩
  · rw [List.length_reverse, extractLimbs_length, count_eq_ceil _ _ hw]
  · intro l hl
    rw [List.mem_reverse] at hl
    exact extractLimbs_lt_pow w _ v l hl
  · rw [extractLimbs_reverse_foldl,
      Nat.mod_eq_of_lt (value_lt_pow_mul_count v w hw)]

theorem split_fixed_width_spec_witness :
    0 < 16 ∧
    ((split_into_fixed_width_limbs 74565 16).length = (natBits 74565 + 16 - 1) / 16 ∧
    (∀ l ∈ split_into_fixed_width_limbs 74565 16, l < 2 ^ 16) ∧
    (split_into_fixed_width_limbs 74565 16).foldl (fun acc l => acc * 2 ^ 16 + l) 0 = 74565 ∧
    split_into_fixed_width_limbs 74565 16 = [1, 9029]) :=
  ⟨by decide, split_fixed_width_spec 74565 16 (by decide)⟩

/-- Claim C8: for every limb width w greater than 0,
split_into_fixed_width_limbs applied to the value 0 returns the empty limb
sequence, because the computed limb count is 0; it never pads with a zero
limb for the value zero. -/
theorem split_fixed_width_zero (w : Nat) (hw : 0 < w) :
    split_into_fixed_width_limbs 0 w = [] := by
  unfold split_into_fixed_width_limbs
  simp [natBits_zero, Nat.zero_div, Nat.zero_mod, extractLimbs]

theorem split_fixed_width_zero_witness :
    0 < 16 ∧ split_into_fixed_width_limbs 0 16 = [] :=
  ⟨by decide, split_fixed_width_zero 16 (by decide)⟩

/-- Claim C5: for every v, every limb width w greater than 0, and every limb
count n at least the rounded-up (bit length of v) / w,
split_into_fixed_number_of_limbs returns exactly n limbs ordered
least-significant-limb-first, summing limb i times 2 ^ (w * i) reassembles v
exactly, and every limb at a position beyond those needed for v is 0. -/
theorem split_fixed_number_spec (v w n : Nat) (hw : 0 < w)
    (hn : (natBits v + w - 1) / w ≤ n) :
    (split_into_fixed_number_of_limbs v w n).length = n ∧
    weightedSum (2 ^ w) (split_into_fixed_number_of_limbs v w n) = v ∧
    ∀ i, (natBits v + w - 1) / w ≤ i →
      (split_into_fixed_number_of_limbs v w n).getD i 0 = 0 := by
  have hceil : natBits v / w + (if natBits v % w ≠ 0 then 1 else 0)
      = (natBits v + w - 1) / w := count_eq_ceil _ _ hw
  have hsize : natBits v ≤ w * ((natBits v + w - 1) / w) := by
    rw [← hceil]; exact size_le_mul_count _ _ hw
  refine ⟨extractLimbs_length w n v, ?_, ?_⟩
  · rw [← reverse_foldl_eq_weightedSum]
    unfold split_into_fixed_number_of_limbs
    rw [extractLimbs_reverse_foldl]
    apply Nat.mod_eq_of_lt
    have h1 : natBits v ≤ w * n := le_trans hsize (Nat.mul_le_mul le_rfl hn)
    have h2 : 2 ^ natBits v ≤ 2 ^ (w * n) := Nat.pow_le_pow_right (by norm_num) h1
    have h3 := natBits_lt_pow v
    omega
  · intro i hi
    by_cases hin : i < n
    · unfold split_into_fixed_number_of_limbs
      rw [extractLimbs_getD w n i v hin]
      have h1 : natBits v ≤ w * i := le_trans hsize (Nat.mul_le_mul le_rfl hi)
      have h2 : 2 ^ natBits v ≤ 2 ^ (w * i) := Nat.pow_le_pow_right (by norm_num) h1
      have h3 := natBits_lt_pow v
      have hv : v < 2 ^ (w * i) := by omega
      rw [Nat.div_eq_of_lt hv, Nat.zero_mod]
    · apply List.getD_eq_default
      unfold split_into_fixed_number_of_limbs
      rw [extractLimbs_length]
      omega

theorem split_fixed_number_spec_witness :
    0 < 16 ∧ (natBits 74565 + 16 - 1) / 16 ≤ 3 ∧
    ((split_into_fixed_number_of_limbs 74565 16 3).length = 3 ∧
    weightedSum (2 ^ 16) (split_into_fixed_number_of_limbs 74565 16 3) = 74565 ∧
    ∀ i, (natBits 74565 + 16 - 1) / 16 ≤ i →
      (split_into_fixed_number_of_limbs 74565 16 3).getD i 0 = 0) :=
  ⟨by decide, by decide, split_fixed_number_spec 74565 16 3 (by decide) (by decide)⟩

/-- Claim C10: for every v, every limb width w greater than 0, and every limb
count n, including n too small for v, summing the limbs of
split_into_fixed_number_of_limbs as limb i times 2 ^ (w * i) yields
v mod 2 ^ (w * n): the high bits of v are silently discarded and no error is
raised. -/
theorem split_fixed_number_truncates (v w n : Nat) (hw : 0 < w) :
    weightedSum (2 ^ w) (split_into_fixed_number_of_limbs v w n) = v % 2 ^ (w * n) := by
  rw [← reverse_foldl_eq_weightedSum]
  exact extractLimbs_reverse_foldl w n v

theorem split_fixed_number_truncates_witness :
    0 < 4 ∧
    weightedSum (2 ^ 4) (split_into_fixed_number_of_limbs 300 4 1) = 300 % 2 ^ (4 * 1) :=
  ⟨by decide, split_fixed_number_truncates 300 4 1 (by decide)⟩

/-- The loop of num_integer extended_gcd as called by mod_inverse: the
remainder pair (r0, r1) lives on nonnegative big integers, so it is embedded
over Nat; the coefficient pairs (s0, s1) and (t0, t1) are signed.  One
iteration maps (r0, r1) to (r1 mod r0, r0) with quotient q = r1 / r0 and
applies the same linear step to both coefficient pairs. -/
def egcdLoop (r0 r1 : Nat) (s0 s1 t0 t1 : Int) : Nat × Int × Int :=
  if h : r0 = 0 then (r1, s1, t1)
  else egcdLoop (r1 % r0) r0 (s1 - ((r1 / r0 : Nat) : Int) * s0) s0
    (t1 - ((r1 / r0 : Nat) : Int) * t0) t0
termination_by r0
decreasing_by exact Nat.mod_lt _ (Nat.pos_of_ne_zero h)

/-- Embedding of selfv.extended_gcd(otherv): the loop starts from
r = (otherv, selfv), s = (0, 1), t = (1, 0) and returns (gcd, x, y) with
gcd = selfv * x + otherv * y. -/
def extended_gcd (selfv otherv : Nat) : Nat × Int × Int :=
  egcdLoop otherv selfv 0 1 1 0

/-- The fatal failure modes of mod_inverse: the explicit division-by-zero
panic, the gcd assertion, the to_biguint expect, and the debug assertion
that the normalized result is below the modulus. -/
inductive ModInverseFailure where
  | divisionByZero
  | assertGcdFailed
  | expectFailed
  | debugAssertFailed
deriving DecidableEq

/-- The sign normalization of the Bezout coefficient in mod_inverse: add the
modulus once if the coefficient is negative. -/
def normalizedBezout (y : Int) (modulus : Nat) : Int :=
  if y < 0 then y + (modulus : Int) else y

/-- The tail of mod_inverse after the extended-gcd call: normalize the sign,
convert to an unsigned big integer (the expect fails on a value that is
still negative), and check the debug assertion that the result is strictly
below the modulus. -/
def mod_inverse_normalize (y : Int) (modulus : Nat) : Except ModInverseFailure Nat :=
  if normalizedBezout y modulus < 0 then Except.error ModInverseFailure.expectFailed
  else if ¬ normalizedBezout y modulus < (modulus : Int) then
    Except.error ModInverseFailure.debugAssertFailed
  else Except.ok (normalizedBezout y modulus).toNat

/-- Embedding of mod_inverse: fatal failures are embedded as Except errors. -/
def mod_inverse (el modulus : Nat) : Except ModInverseFailure Nat :=
  if el = 0 then Except.error ModInverseFailure.divisionByZero
  else if (extended_gcd modulus el).1 ≠ 1 then
    Except.error ModInverseFailure.assertGcdFailed
  else mod_inverse_normalize (extended_gcd modulus el).2.2 modulus

theorem egcdLoop_fst (r0 r1 : Nat) (s0 s1 t0 t1 : Int) :
    (egcdLoop r0 r1 s0 s1 t0 t1).1 = Nat.gcd r0 r1 := by
  induction r0, r1, s0, s1, t0, t1 using egcdLoop.induct with
  | case1 r1 s0 s1 t0 t1 =>
    rw [egcdLoop]; simp [Nat.gcd_zero_left]
  | case2 r0 r1 s0 s1 t0 t1 h ih =>
    rw [egcdLoop, dif_neg h, ih]
    exact (Nat.gcd_rec r0 r1).symm

theorem egcdLoop_bezout (M A : Int) (r0 r1 : Nat) (s0 s1 t0 t1 : Int) :
    (r0 : Int) = M * s0 + A * t0 → (r1 : Int) = M * s1 + A * t1 →
    ((egcdLoop r0 r1 s0 s1 t0 t1).1 : Int)
      = M * (egcdLoop r0 r1 s0 s1 t0 t1).2.1 + A * (egcdLoop r0 r1 s0 s1 t0 t1).2.2 := by
  induction r0, r1, s0, s1, t0, t1 using egcdLoop.induct with
  | case1 r1 s0 s1 t0 t1 =>
    intro h0 h1
    rw [egcdLoop, dif_pos rfl]
    exact h1
  | case2 r0 r1 s0 s1 t0 t1 h ih =>
    intro h0 h1
    rw [egcdLoop, dif_neg h]
    apply ih
    · have hmodZ : (↑(r1 % r0) : Int) + ↑r0 * ↑(r1 / r0) = ↑r1 := by
        exact_mod_cast Nat.mod_add_div r1 r0
      have hstep : M * (s1 - ((r1 / r0 : Nat) : Int) * s0) + A * (t1 - ((r1 / r0 : Nat) : Int) * t0)
          = (M * s1 + A * t1) - ((r1 / r0 : Nat) : Int) * (M * s0 + A * t0) := by ring
      rw [hstep, ← h0, ← h1]
      linarith [hmodZ]
    · exact h0

theorem egcdLoop_bound (M : Nat) (r0 r1 : Nat) (s0 s1 t0 t1 : Int) :
    0 < r1 → r0 ≤ r1 → t0 * t1 ≤ 0 → |t1| ≤ |t0| →
    ((r0 : Int) * t1 - (r1 : Int) * t0 = (M : Int) ∨
      (r0 : Int) * t1 - (r1 : Int) * t0 = -(M : Int)) →
    ((egcdLoop r0 r1 s0 s1 t0 t1).1 : Int) * |(egcdLoop r0 r1 s0 s1 t0 t1).2.2|
      ≤ (M : Int) := by
  induction r0, r1, s0, s1, t0, t1 using egcdLoop.induct with
  | case1 r1 s0 s1 t0 t1 =>
    intro hr1 _ _ habs hD
    rw [egcdLoop, dif_pos rfl]
    rw [Nat.cast_zero, zero_mul, zero_sub] at hD
    have hr1t0 : (r1 : Int) * |t0| = (M : Int) := by
      rcases hD with hD | hD
      · have h1 : (r1 : Int) * t0 = -(M : Int) := by linarith
        have h2 : |(r1 : Int) * t0| = (M : Int) := by
          rw [h1, abs_neg, abs_of_nonneg (by positivity)]
        rw [abs_mul, abs_of_nonneg (by positivity : (0:Int) ≤ (r1 : Int))] at h2
        exact h2
      · have h1 : (r1 : Int) * t0 = (M : Int) := by linarith
        have h2 : |(r1 : Int) * t0| = (M : Int) := by
          rw [h1, abs_of_nonneg (by positivity)]
        rw [abs_mul, abs_of_nonneg (by positivity : (0:Int) ≤ (r1 : Int))] at h2
        exact h2
    calc ((r1, s1, t1).1 : Int) * |(r1, s1, t1).2.2| = (r1 : Int) * |t1| := rfl
    _ ≤ (r1 : Int) * |t0| := by
        apply mul_le_mul_of_nonneg_left habs (by positivity)
    _ = (M : Int) := hr1t0
  | case2 r0 r1 s0 s1 t0 t1 h ih =>
    intro hr1 hle ht habs hD
    have hr0 : 0 < r0 := Nat.pos_of_ne_zero h
    have hq1 : (1 : Int) ≤ ((r1 / r0 : Nat) : Int) := by
      have : 1 ≤ r1 / r0 := (Nat.one_le_div_iff hr0).mpr hle
      exact_mod_cast this
    have hq0 : (0 : Int) ≤ ((r1 / r0 : Nat) : Int) := by linarith
    have hmodZ : (↑(r1 % r0) : Int) + ↑r0 * ↑(r1 / r0) = ↑r1 := by
      exact_mod_cast Nat.mod_add_div r1 r0
    rw [egcdLoop, dif_neg h]
    apply ih
    · exact hr0
    · exact Nat.le_of_lt (Nat.mod_lt _ hr0)
    · have hexp : (t1 - ((r1 / r0 : Nat) : Int) * t0) * t0
          = t0 * t1 - ((r1 / r0 : Nat) : Int) * (t0 * t0) := by ring
      rw [hexp]
      have hsq : (0 : Int) ≤ ((r1 / r0 : Nat) : Int) * (t0 * t0) :=
        mul_nonneg hq0 (mul_self_nonneg t0)
      linarith
    · rcases lt_trichotomy t0 0 with hneg | hzero | hpos
      · have ht1 : 0 ≤ t1 := by nlinarith
        have hge : 0 ≤ t1 - ((r1 / r0 : Nat) : Int) * t0 := by nlinarith
        rw [abs_of_neg hneg, abs_of_nonneg hge]
        nlinarith
      · rw [hzero]
        simp [abs_nonneg]
      · have ht1 : t1 ≤ 0 := by nlinarith
        have hlt0 : t1 - ((r1 / r0 : Nat) : Int) * t0 ≤ 0 := by nlinarith
        rw [abs_of_pos hpos, abs_of_nonpos hlt0]
        nlinarith
    · have hflip : ((r1 % r0 : Nat) : Int) * t0 - (r0 : Int) * (t1 - ((r1 / r0 : Nat) : Int) * t0)
          = -((r0 : Int) * t1 - (r1 : Int) * t0) := by
        linear_combination t0 * hmodZ
      rcases hD with hD | hD
      · right
        rw [hflip, hD]
      · left
        rw [hflip, hD]
        ring

theorem mod_inverse_spec (a m : Nat) (ha : a ≠ 0) (hg : Nat.gcd a m = 1) (hm : 1 < m) :
    ∃ r, mod_inverse a m = Except.ok r ∧ r < m ∧ r * a % m = 1 := by
  have hfst : (extended_gcd m a).1 = 1 := by
    unfold extended_gcd
    rw [egcdLoop_fst, hg]
  have hbez0 : ((extended_gcd m a).1 : Int)
      = (m : Int) * (extended_gcd m a).2.1 + (a : Int) * (extended_gcd m a).2.2 := by
    unfold extended_gcd
    apply egcdLoop_bezout
    · push_cast; ring
    · push_cast; ring
  set x := (extended_gcd m a).2.1 with hx
  set y := (extended_gcd m a).2.2 with hy
  have hb1 : (1 : Int) = (m : Int) * x + (a : Int) * y := by
    rw [hfst] at hbez0
    exact_mod_cast hbez0
  have hbound : ((extended_gcd m a).1 : Int) * |y| ≤ (m : Int) := by
    rcases lt_trichotomy a m with hlt | heq | hgt
    · unfold extended_gcd
      apply egcdLoop_bound
      · omega
      · exact Nat.le_of_lt hlt
      · norm_num
      · norm_num
      · right; push_cast; ring
    · exfalso
      rw [heq, Nat.gcd_self] at hg
      omega
    · have hm0 : m ≠ 0 := by omega
      have hstep : egcdLoop a m 0 1 1 0 = egcdLoop (a % m) m (-((a / m : Nat) : Int)) 1 1 0 := by
        rw [egcdLoop, dif_neg ha, Nat.mod_eq_of_lt hgt, Nat.div_eq_of_lt hgt]
        norm_num
        rw [egcdLoop, dif_neg hm0]
        norm_num
      unfold extended_gcd at hy hfst ⊢
      rw [hstep]
      rw [hstep] at hy
      rw [hy]
      apply egcdLoop_bound
      · omega
      · exact Nat.le_of_lt (Nat.mod_lt _ (by omega))
      · norm_num
      · norm_num
      · right; push_cast; ring
  rw [hfst] at hbound
  have habs : |y| ≤ (m : Int) := by
    have : ((1 : Nat) : Int) * |y| ≤ (m : Int) := hbound
    simpa using this
  have hne1 : y ≠ (m : Int) := by
    intro hym
    have hdvd : (m : Int) ∣ 1 := ⟨x + (a : Int), by rw [hym] at hb1; linear_combination hb1⟩
    have := Int.le_of_dvd one_pos hdvd
    have : m ≤ 1 := by exact_mod_cast this
    omega
  have hne2 : y ≠ -(m : Int) := by
    intro hym
    have hdvd : (m : Int) ∣ 1 := ⟨x - (a : Int), by rw [hym] at hb1; linear_combination hb1⟩
    have := Int.le_of_dvd one_pos hdvd
    have : m ≤ 1 := by exact_mod_cast this
    omega
  have hyrange : -(m : Int) < y ∧ y < (m : Int) := by
    rcases abs_le.mp habs with ⟨h1, h2⟩
    exact ⟨lt_of_le_of_ne h1 (fun hh => hne2 hh.symm), lt_of_le_of_ne h2 hne1⟩
  have hnb : 0 ≤ normalizedBezout y m ∧ normalizedBezout y m < (m : Int) := by
    unfold normalizedBezout
    by_cases hysign : y < 0
    · rw [if_pos hysign]
      omega
    · rw [if_neg hysign]
      omega
  refine ⟨(normalizedBezout y m).toNat, ?_, ?_, ?_⟩
  · unfold mod_inverse
    rw [if_neg ha, if_neg (by rw [hfst]; omega)]
    rw [← hy]
    unfold mod_inverse_normalize
    rw [if_neg (by omega), if_neg (by omega)]
  · omega
  · have hKex : ∃ K : Int, ((normalizedBezout y m).toNat : Int) * (a : Int)
        = 1 + (m : Int) * K := by
      have htn : ((normalizedBezout y m).toNat : Int) = normalizedBezout y m := by omega
      by_cases hysign : y < 0
      · refine ⟨(a : Int) - x, ?_⟩
        rw [htn]
        unfold normalizedBezout
        rw [if_pos hysign]
        linear_combination -hb1
      · refine ⟨-x, ?_⟩
        rw [htn]
        unfold normalizedBezout
        rw [if_neg hysign]
        linear_combination -hb1
    obtain ⟨K, hK⟩ := hKex
    have hK0 : 0 ≤ K := by
      by_contra hKneg
      push_neg at hKneg
      have h1 : K ≤ -1 := by omega
      have h2 : (m : Int) * K ≤ (m : Int) * (-1) :=
        mul_le_mul_of_nonneg_left h1 (by positivity)
      have h3 : (0 : Int) ≤ ((normalizedBezout y m).toNat : Int) * (a : Int) := by positivity
      have hmZ : (1 : Int) < (m : Int) := by exact_mod_cast hm
      linarith
    lift K to ℕ using hK0 with k
    have hNat : (normalizedBezout y m).toNat * a = 1 + m * k := by exact_mod_cast hK
    rw [hNat, Nat.add_mul_mod_self_left, Nat.mod_eq_of_lt hm]

/-- Claim C4: for all big unsigned integers a and m with a nonzero, a and m
coprime and m greater than 1, mod_inverse a m returns a value r with
0 less-or-equal r less-than m and r * a mod m = 1: the Bezout coefficient of a
normalized into the range 0 to m by adding m if negative. -/
theorem mod_inverse_correct (a m : Nat) (ha : a ≠ 0) (hg : Nat.gcd a m = 1)
    (hm : 1 < m) :
    ∃ r, mod_inverse a m = Except.ok r ∧ r < m ∧ r * a % m = 1 :=
  mod_inverse_spec a m ha hg hm

theorem mod_inverse_correct_witness :
    (3 : Nat) ≠ 0 ∧ Nat.gcd 3 5 = 1 ∧ 1 < 5 ∧
    (∃ r, mod_inverse 3 5 = Except.ok r ∧ r < 5 ∧ r * 3 % 5 = 1) :=
  ⟨by decide, by decide, by decide, mod_inverse_correct 3 5 (by decide) (by decide) (by decide)⟩

/-- Claim C7 counterexample: at el = 1, modulus = 1, a nonzero el coprime to
the modulus, mod_inverse does not return normally: the Bezout coefficient is
1, and the final debug assertion that the normalized result is strictly below
the modulus fails. -/
theorem mod_inverse_claim_cex :
    (1 : Nat) ≠ 0 ∧ Nat.gcd 1 1 = 1 ∧
    mod_inverse 1 1 = Except.error ModInverseFailure.debugAssertFailed := by
  refine ⟨by decide, by decide, ?_⟩
  have hval : egcdLoop 1 1 0 1 1 0 = (1, 0, 1) := by
    rw [egcdLoop]
    norm_num
    rw [egcdLoop]
    simp
  unfold mod_inverse extended_gcd mod_inverse_normalize normalizedBezout
  rw [hval]
  norm_num

/-- Claim C7 (amended): mod_inverse fails fatally with the division-by-zero
panic exactly when el = 0; fails the internal gcd assertion when el is
nonzero but not coprime to the modulus; and, for every modulus greater
than 1, returns normally on every nonzero el coprime to the modulus.  (For
modulus 0 or 1 a coprime nonzero el instead trips the final debug assertion
that the result is strictly below the modulus.)  No failure is recovered or
reported softly. -/
theorem mod_inverse_failure_spec (el modulus : Nat) :
    (el = 0 → mod_inverse el modulus = Except.error ModInverseFailure.divisionByZero) ∧
    (el ≠ 0 → Nat.gcd el modulus ≠ 1 →
      mod_inverse el modulus = Except.error ModInverseFailure.assertGcdFailed) ∧
    (el ≠ 0 → Nat.gcd el modulus = 1 → 1 < modulus →
      ∃ r, mod_inverse el modulus = Except.ok r) := by
  refine ⟨?_, ?_, ?_⟩
  · intro h
    subst h
    rfl
  · intro h1 h2
    unfold mod_inverse
    rw [if_neg h1, if_pos]
    unfold extended_gcd
    rw [egcdLoop_fst]
    exact h2
  · intro h1 h2 h3
    obtain ⟨r, hr, _, _⟩ := mod_inverse_spec el modulus h1 h2 h3
    exact ⟨r, hr⟩

theorem mod_inverse_failure_spec_witness :
    mod_inverse 0 7 = Except.error ModInverseFailure.divisionByZero ∧
    mod_inverse 4 6 = Except.error ModInverseFailure.assertGcdFailed ∧
    (∃ r, mod_inverse 2 5 = Except.ok r) :=
  ⟨(mod_inverse_failure_spec 0 7).1 rfl,
   (mod_inverse_failure_spec 4 6).2.1 (by decide) (by decide),
   (mod_inverse_failure_spec 2 5).2.2 (by decide) (by decide) (by decide)⟩

/-- Modelled from the spec: the Term value carrier (simple_term.rs is not part
of this core).  It is a linear expression over one constrained variable that
may carry a concrete field value; scale, negate and add_constant act on the
carried value with the obvious field semantics.  Only the carried value is
observable through this core. -/
structure Term (p : Nat) where
  value : Option (ZMod p)
deriving DecidableEq

def Term.get_value {p : Nat} (t : Term p) : Option (ZMod p) := t.value

def Term.scale {p : Nat} (t : Term p) (c : ZMod p) : Term p :=
  ⟨t.value.map (fun v => v * c)⟩

def Term.negate {p : Nat} (t : Term p) : Term p :=
  ⟨t.value.map (fun v => -v)⟩

def Term.add_constant {p : Nat} (t : Term p) (c : ZMod p) : Term p :=
  ⟨t.value.map (fun v => v + c)⟩

/-- Embedding of Limb: a term together with the tracked max_value bound. -/
structure Limb (p : Nat) where
  term : Term p
  max_value : Nat
deriving DecidableEq

/-- Embedding of Limb::scale: scales the term only. -/
def Limb.scale {p : Nat} (l : Limb p) (c : ZMod p) : Limb p :=
  ⟨l.term.scale c, l.max_value⟩

/-- Embedding of Limb::negate: negates the term only. -/
def Limb.negate {p : Nat} (l : Limb p) : Limb p :=
  ⟨l.term.negate, l.max_value⟩

/-- Embedding of Limb::add_constant: adds to the term only. -/
def Limb.add_constant {p : Nat} (l : Limb p) (c : ZMod p) : Limb p :=
  ⟨l.term.add_constant c, l.max_value⟩

/-- Embedding of Limb::inc_max. -/
def Limb.inc_max {p : Nat} (l : Limb p) (b : Nat) : Limb p :=
  ⟨l.term, l.max_value + b⟩

/-- Embedding of Limb::scale_max. -/
def Limb.scale_max {p : Nat} (l : Limb p) (b : Nat) : Limb p :=
  ⟨l.term, l.max_value * b⟩

/-- Embedding of Limb::max_bits: bits of max_value plus one. -/
def Limb.max_bits {p : Nat} (l : Limb p) : Nat :=
  natBits l.max_value + 1

/-- Embedding of Limb::get_value: the unsigned integer value of the term
(fe_to_biguint of the unwrapped field value), with the unwrap embedded as
Option. -/
def Limb.get_value {p : Nat} (l : Limb p) : Option Nat :=
  l.term.get_value.map (fun v => v.val)

/-- Claim C1 counterexample: Limb::scale multiplies only the term.  At the
concrete limb with max_value 1 over the field with five elements, scaling by
the field constant 2 leaves max_value at 1 instead of multiplying it by the
unsigned integer value 2 of the constant. -/
theorem limb_scale_claim_cex :
    ¬ ((Limb.scale (⟨⟨some 1⟩, 1⟩ : Limb 5) 2).max_value
        = (⟨⟨some 1⟩, 1⟩ : Limb 5).max_value * (2 : ZMod 5).val) := by
  decide

/-- Claim C1 (amended): Limb::scale multiplies the term by the field constant
and leaves max_value unchanged; multiplying the bound is a separate caller
obligation through scale_max, which multiplies max_value and leaves the term
unchanged. -/
theorem limb_scale_spec {p : Nat} (l : Limb p) (c : ZMod p) (b : Nat) :
    (l.scale c).term.value = l.term.value.map (fun v => v * c) ∧
    (l.scale c).max_value = l.max_value ∧
    (l.scale_max b).max_value = l.max_value * b ∧
    (l.scale_max b).term = l.term :=
  ⟨rfl, rfl, rfl, rfl⟩

/-- Embedding of ff PrimeField inverse(): none exactly on zero, the field
inverse otherwise. -/
def fe_inverse {p : Nat} [Fact (Nat.Prime p)] (x : ZMod p) : Option (ZMod p) :=
  if x = 0 then none else some x⁻¹

/-- Embedding of LimbedRepresentationParameters. -/
structure LimbedRepresentationParameters (p : Nat) where
  limb_size_bits : Nat
  limb_max_value : Nat
  limb_max_intermediate_value : Nat
  limb_intermediate_value_capacity : Nat
  shift_left_by_limb_constant : ZMod p
  shift_right_by_limb_constant : ZMod p
  mul_two_constant : ZMod p
  div_two_constant : ZMod p
deriving DecidableEq

/-- Embedding of LimbedRepresentationParameters::new: the shift constant is
the field image of 2 ^ limb_size, its unwrapped inverse is the right-shift
constant, two is one doubled, and div_two is its unwrapped inverse; the two
unwraps are embedded as Option. -/
def LimbedRepresentationParameters.new (p : Nat) [Fact (Nat.Prime p)]
    (limb_size intermediate_value_capacity : Nat) :
    Option (LimbedRepresentationParameters p) :=
  match fe_inverse (((2 ^ limb_size : Nat) : ZMod p)) with
  | none => none
  | some shift_right =>
    match fe_inverse ((1 : ZMod p) + 1) with
    | none => none
    | some div_two =>
      some ⟨limb_size, 2 ^ limb_size - 1,
        2 ^ intermediate_value_capacity - 1, intermediate_value_capacity,
        ((2 ^ limb_size : Nat) : ZMod p), shift_right,
        (1 : ZMod p) + 1, div_two⟩

/-- Claim C6: for every limb width L greater than 0 and capacity at least L
for which construction succeeds, the constructed parameters have
limb_max_value = 2 ^ L - 1 and limb_max_intermediate_value =
2 ^ capacity - 1, the shift constants are mutually inverse in the field,
mul_two_constant is the field element 2, and mul_two_constant times
div_two_constant is 1. -/
theorem representation_parameters_new_spec (p L cap : Nat) [Fact (Nat.Prime p)]
    (hL : 0 < L) (hcap : L ≤ cap) (P : LimbedRepresentationParameters p)
    (h : LimbedRepresentationParameters.new p L cap = some P) :
    P.limb_max_value = 2 ^ L - 1 ∧
    P.limb_max_intermediate_value = 2 ^ cap - 1 ∧
    P.shift_left_by_limb_constant * P.shift_right_by_limb_constant = 1 ∧
    P.mul_two_constant = 2 ∧
    P.mul_two_constant * P.div_two_constant = 1 := by
  unfold LimbedRepresentationParameters.new at h
  by_cases hz1 : (((2 ^ L : Nat) : ZMod p)) = 0
  · rw [show fe_inverse (((2 ^ L : Nat) : ZMod p)) = none by
      unfold fe_inverse; rw [if_pos hz1]] at h
    exact absurd h (by simp)
  · rw [show fe_inverse (((2 ^ L : Nat) : ZMod p))
        = some (((2 ^ L : Nat) : ZMod p))⁻¹ by
      unfold fe_inverse; rw [if_neg hz1]] at h
    by_cases hz2 : ((1 : ZMod p) + 1) = 0
    · rw [show fe_inverse ((1 : ZMod p) + 1) = none by
        unfold fe_inverse; rw [if_pos hz2]] at h
      exact absurd h (by simp)
    · rw [show fe_inverse ((1 : ZMod p) + 1) = some ((1 : ZMod p) + 1)⁻¹ by
        unfold fe_inverse; rw [if_neg hz2]] at h
      have hP : P = ⟨L, 2 ^ L - 1, 2 ^ cap - 1, cap,
          ((2 ^ L : Nat) : ZMod p), (((2 ^ L : Nat) : ZMod p))⁻¹,
          (1 : ZMod p) + 1, ((1 : ZMod p) + 1)⁻¹⟩ := by
        exact (Option.some.inj h).symm
      subst hP
      refine ⟨rfl, rfl, mul_inv_cancel₀ hz1, one_add_one_eq_two, mul_inv_cancel₀ hz2⟩

instance : Fact (Nat.Prime 5) := ⟨by norm_num⟩

/-- Concrete representation parameters over the field with five elements at
limb width 1 and capacity 2. -/
def exampleParams : LimbedRepresentationParameters 5 :=
  ⟨1, 1, 3, 2, 2, 3, 2, 3⟩

theorem exampleParams_new :
    LimbedRepresentationParameters.new 5 1 2 = some exampleParams := by
  have hc : (((2 ^ 1 : Nat)) : ZMod 5) = 2 := by decide
  have hinv2 : (2 : ZMod 5)⁻¹ = 3 := inv_eq_of_mul_eq_one_right (by decide)
  have h1 : fe_inverse (((2 ^ 1 : Nat)) : ZMod 5) = some 3 := by
    unfold fe_inverse
    rw [hc, if_neg (by decide : ¬ (2 : ZMod 5) = 0), hinv2]
  have h2 : fe_inverse ((1 : ZMod 5) + 1) = some 3 := by
    unfold fe_inverse
    rw [show (1 : ZMod 5) + 1 = 2 by decide,
      if_neg (by decide : ¬ (2 : ZMod 5) = 0), hinv2]
  unfold LimbedRepresentationParameters.new
  rw [h1, h2]
  decide

theorem representation_parameters_new_spec_witness :
    0 < 1 ∧ 1 ≤ 2 ∧
    (exampleParams.limb_max_value = 2 ^ 1 - 1 ∧
     exampleParams.limb_max_intermediate_value = 2 ^ 2 - 1 ∧
     exampleParams.shift_left_by_limb_constant * exampleParams.shift_right_by_limb_constant = 1 ∧
     exampleParams.mul_two_constant = 2 ∧
     exampleParams.mul_two_constant * exampleParams.div_two_constant = 1) :=
  ⟨by decide, by decide,
   representation_parameters_new_spec 5 1 2 (by decide) (by decide)
     exampleParams exampleParams_new⟩

/-- Embedding of LimbedBigUint: limbs are stored
least-significant-limb-first. -/
structure LimbedBigUint (p : Nat) where
  params : LimbedRepresentationParameters p
  num_limbs : Nat
  limbs : List (Limb p)
  is_constant : Bool

/-- Embedding of LimbedBigUint::get_value: iterate the limbs in reverse
(most-significant first), accumulating result = (result shifted left by
limb_size_bits) + limb value; the unwrap inside Limb::get_value is embedded
as Option. -/
def LimbedBigUint.get_value {p : Nat} (x : LimbedBigUint p) : Option Nat :=
  x.limbs.reverse.foldlM
    (fun result l => (Limb.get_value l).map
      (fun v => result * 2 ^ x.params.limb_size_bits + v)) 0

theorem foldlM_get_value {p : Nat} (B : Nat) :
    ∀ (ls : List (Limb p)) (acc : Nat),
      (∀ l ∈ ls, (Limb.get_value l).isSome) →
      ls.foldlM (fun result l => (Limb.get_value l).map
          (fun v => result * B + v)) acc
        = some (ls.foldl
            (fun result l => result * B + (Limb.get_value l).getD 0) acc) := by
  intro ls
  induction ls with
  | nil => intro acc _; rfl
  | cons l ls ih =>
    intro acc hall
    have hl : (Limb.get_value l).isSome := hall l (List.mem_cons_self l ls)
    obtain ⟨v, hv⟩ := Option.isSome_iff_exists.mp hl
    rw [List.foldlM_cons, hv]
    simp only [Option.map_some', Option.bind_eq_bind, Option.some_bind]
    rw [ih _ (fun l2 hl2 => hall l2 (List.mem_cons_of_mem l hl2))]
    rw [List.foldl_cons, hv]
    rfl

/-- Claim C3: for every LimbedBigUint whose limbs are ordered
least-significant-limb-first and in which every limb carries a concrete
value, get_value returns the weighted sum over i of the value of limb i
times (2 ^ limb_size_bits) ^ i, computed by iterating the limbs from
most-significant to least-significant and accumulating
result = result * 2 ^ limb_size_bits + value. -/
theorem limbed_biguint_get_value_spec {p : Nat} (x : LimbedBigUint p)
    (h : ∀ l ∈ x.limbs, (Limb.get_value l).isSome) :
    x.get_value = some (weightedSum (2 ^ x.params.limb_size_bits)
      (x.limbs.map (fun l => (Limb.get_value l).getD 0))) := by
  unfold LimbedBigUint.get_value
  rw [foldlM_get_value _ _ _ (fun l hl => h l (List.mem_reverse.mp hl))]
  congr 1
  rw [← reverse_foldl_eq_weightedSum]
  rw [← List.map_reverse]
  rw [List.foldl_map]

/-- A concrete LimbedBigUint over the field with five elements: limb width 2,
least-significant-first limb values 3 and 1, so its value is 3 + 1 * 4. -/
def exampleBig : LimbedBigUint 5 :=
  ⟨⟨2, 3, 15, 4, 4, 4, 2, 3⟩, 2, [⟨⟨some 3⟩, 3⟩, ⟨⟨some 1⟩, 3⟩], false⟩

theorem limbed_biguint_get_value_spec_witness :
    (∀ l ∈ exampleBig.limbs, (Limb.get_value l).isSome) ∧
    exampleBig.get_value = some (weightedSum (2 ^ exampleBig.params.limb_size_bits)
      (exampleBig.limbs.map (fun l => (Limb.get_value l).getD 0))) :=
  ⟨by decide, limbed_biguint_get_value_spec exampleBig (by decide)⟩

/-- Embedding of repr_to_biguint: walk the stored 64-bit words
most-significant first (reverse storage order), accumulating
b = b * 2 ^ 64 + word. -/
def repr_to_biguint (repr : List Nat) : Nat :=
  repr.reverse.foldl (fun b limb => b * 2 ^ 64 + limb) 0

/-- The loop of get_num_bits over the most-significant-first words: subtract
64 for each zero word from the top; at the first nonzero word subtract its
leading-zero count 64 - natBits word and stop. -/
def countBitsAux : List Nat → Nat → Nat
  | [], num_bits => num_bits
  | limb :: rest, num_bits =>
    if limb = 0 then countBitsAux rest (num_bits - 64)
    else num_bits - (64 - natBits limb)

/-- Embedding of get_num_bits: start from word count times 64 and walk the
representation words most-significant first. -/
def get_num_bits (repr : List Nat) : Nat :=
  countBitsAux repr.reverse (repr.length * 64)

theorem natBits_mul_pow_add (w e r : Nat) (hw : 0 < w) (hr : r < 2 ^ e) :
    natBits (w * 2 ^ e + r) = e + natBits w := by
  have hwb := natBits_lt_pow w
  have hub : w * 2 ^ e + r < 2 ^ (e + natBits w) := by
    have h1 : (w + 1) * 2 ^ e = w * 2 ^ e + 2 ^ e := by ring
    have h2 : (w + 1) * 2 ^ e ≤ 2 ^ natBits w * 2 ^ e :=
      Nat.mul_le_mul (by omega) le_rfl
    have h3 : (2:Nat) ^ natBits w * 2 ^ e = 2 ^ (e + natBits w) := by
      rw [← pow_add]; ring_nf
    omega
  have hle : natBits (w * 2 ^ e + r) ≤ e + natBits w := natBits_le_of_lt_pow hub
  match hc : natBits w with
  | 0 =>
    exfalso
    have := lt_natBits_of_pow_le (show 2 ^ 0 ≤ w by simpa using hw)
    omega
  | c + 1 =>
    have hcl : 2 ^ c ≤ w := by
      by_contra hcontra
      push_neg at hcontra
      have := natBits_le_of_lt_pow hcontra
      omega
    have hlow : 2 ^ (e + c) ≤ w * 2 ^ e + r := by
      have h1 : (2:Nat) ^ (e + c) = 2 ^ c * 2 ^ e := by rw [pow_add]; ring
      have h2 : 2 ^ c * 2 ^ e ≤ w * 2 ^ e := Nat.mul_le_mul hcl le_rfl
      omega
    have hgt := lt_natBits_of_pow_le hlow
    rw [hc] at hle
    omega

theorem msb_foldl_init (B : Nat) :
    ∀ (ws : List Nat) (b : Nat),
      ws.foldl (fun acc limb => acc * B + limb) b
        = b * B ^ ws.length + ws.foldl (fun acc limb => acc * B + limb) 0 := by
  intro ws
  induction ws with
  | nil => intro b; simp
  | cons w ws ih =>
    intro b
    rw [List.foldl_cons, List.foldl_cons, ih (b * B + w), ih (0 * B + w)]
    simp only [List.length_cons, Nat.zero_mul, Nat.zero_add]
    ring

theorem msb_foldl_bound :
    ∀ ws : List Nat, (∀ w ∈ ws, w < 2 ^ 64) →
      ws.foldl (fun acc limb => acc * 2 ^ 64 + limb) 0 < (2 ^ 64) ^ ws.length := by
  intro ws
  induction ws with
  | nil => intro _; simp
  | cons w ws ih =>
    intro hall
    have hw : w < 2 ^ 64 := hall w (List.mem_cons_self w ws)
    have hF := ih (fun x hx => hall x (List.mem_cons_of_mem w hx))
    rw [List.foldl_cons, msb_foldl_init]
    have h1 : (0:Nat) * 2 ^ 64 + w = w := by omega
    rw [h1]
    have h2 : ((2:Nat) ^ 64) ^ (w :: ws).length = 2 ^ 64 * (2 ^ 64) ^ ws.length := by
      rw [List.length_cons, pow_succ]; ring
    rw [h2]
    have h4 : (w + 1) * ((2:Nat) ^ 64) ^ ws.length ≤ 2 ^ 64 * (2 ^ 64) ^ ws.length :=
      Nat.mul_le_mul (by omega) le_rfl
    have h5 : (w + 1) * ((2:Nat) ^ 64) ^ ws.length
        = w * (2 ^ 64) ^ ws.length + (2 ^ 64) ^ ws.length := by ring
    omega

theorem countBitsAux_correct :
    ∀ ws : List Nat, (∀ w ∈ ws, w < 2 ^ 64) →
      countBitsAux ws (ws.length * 64)
        = natBits (ws.foldl (fun acc limb => acc * 2 ^ 64 + limb) 0) := by
  intro ws
  induction ws with
  | nil => intro _; simp [countBitsAux, natBits_zero]
  | cons w ws ih =>
    intro hall
    have hw64 : w < 2 ^ 64 := hall w (List.mem_cons_self w ws)
    have htail : ∀ x ∈ ws, x < 2 ^ 64 := fun x hx => hall x (List.mem_cons_of_mem w hx)
    by_cases hw : w = 0
    · subst hw
      rw [show countBitsAux (0 :: ws) ((0 :: ws).length * 64)
          = countBitsAux ws ((0 :: ws).length * 64 - 64) from rfl]
      have hacc : ((0 :: ws).length) * 64 - 64 = ws.length * 64 := by
        rw [List.length_cons]; omega
      rw [hacc, List.foldl_cons]
      have h0 : (0:Nat) * 2 ^ 64 + 0 = 0 := by omega
      rw [h0]
      exact ih htail
    · have e1 : countBitsAux (w :: ws) ((w :: ws).length * 64)
          = (w :: ws).length * 64 - (64 - natBits w) := by
        simp only [countBitsAux]
        rw [if_neg hw]
      rw [e1, List.foldl_cons]
      have h0 : (0:Nat) * 2 ^ 64 + w = w := by omega
      rw [h0, msb_foldl_init]
      have hX : ((2:Nat) ^ 64) ^ ws.length = 2 ^ (64 * ws.length) :=
        (pow_mul 2 64 ws.length).symm
      rw [hX]
      have hF := msb_foldl_bound ws htail
      rw [hX] at hF
      rw [natBits_mul_pow_add w (64 * ws.length) _ (Nat.pos_of_ne_zero hw) hF]
      have hnb64 : natBits w ≤ 64 := natBits_le_of_lt_pow hw64
      have hnb1 : 0 < natBits w :=
        lt_natBits_of_pow_le (by simpa using Nat.pos_of_ne_zero hw)
      rw [List.length_cons]
      omega

theorem natBits_two_pow (k : Nat) : natBits (2 ^ k) = k + 1 := by
  have h1 : k < natBits (2 ^ k) := lt_natBits_of_pow_le le_rfl
  have hp : 0 < (2:Nat) ^ k := Nat.pos_pow_of_pos k (by norm_num)
  have h3 : (2:Nat) ^ (k + 1) = 2 * 2 ^ k := by rw [pow_succ]; ring
  have h2 : natBits (2 ^ k) ≤ k + 1 := natBits_le_of_lt_pow (by omega)
  omega

theorem natBits_two_pow_sub_one (k : Nat) : natBits (2 ^ k - 1) = k := by
  match k with
  | 0 => simpa using natBits_zero
  | j + 1 =>
    have hp : 0 < (2:Nat) ^ j := Nat.pos_pow_of_pos j (by norm_num)
    have hpow : (2:Nat) ^ (j + 1) = 2 * 2 ^ j := by rw [pow_succ]; ring
    have h1 : (2:Nat) ^ j ≤ 2 ^ (j + 1) - 1 := by omega
    have h2 : (2:Nat) ^ (j + 1) - 1 < 2 ^ (j + 1) := by omega
    have l1 : j < natBits (2 ^ (j + 1) - 1) := lt_natBits_of_pow_le h1
    have l2 : natBits (2 ^ (j + 1) - 1) ≤ j + 1 := natBits_le_of_lt_pow h2
    omega

/-- Claim C9: get_num_bits returns the exact bit length of the represented
value interpreted as an unsigned integer — the position of the highest set
bit plus one: the value 0 has bit length 0, 2 ^ k has bit length k + 1, and
2 ^ k - 1 has bit length k. -/
theorem get_num_bits_spec (repr : List Nat) (h : ∀ w ∈ repr, w < 2 ^ 64) :
    get_num_bits repr = natBits (repr_to_biguint repr) ∧
    (repr_to_biguint repr = 0 → get_num_bits repr = 0) ∧
    (∀ k, repr_to_biguint repr = 2 ^ k → get_num_bits repr = k + 1) ∧
    (∀ k, repr_to_biguint repr = 2 ^ k - 1 → get_num_bits repr = k) := by
  have hmain : get_num_bits repr = natBits (repr_to_biguint repr) := by
    unfold get_num_bits repr_to_biguint
    have hlen : repr.length = repr.reverse.length := (List.length_reverse repr).symm
    rw [hlen]
    exact countBitsAux_correct repr.reverse (fun w hw => h w (List.mem_reverse.mp hw))
  refine ⟨hmain, ?_, ?_, ?_⟩
  · intro h0
    rw [hmain, h0, natBits_zero]
  · intro k hk
    rw [hmain, hk, natBits_two_pow]
  · intro k hk
    rw [hmain, hk, natBits_two_pow_sub_one]

theorem get_num_bits_spec_witness :
    (∀ w ∈ ([5, 0] : List Nat), w < 2 ^ 64) ∧
    (get_num_bits [5, 0] = natBits (repr_to_biguint [5, 0]) ∧
     (repr_to_biguint [5, 0] = 0 → get_num_bits [5, 0] = 0) ∧
     (∀ k, repr_to_biguint [5, 0] = 2 ^ k → get_num_bits [5, 0] = k + 1) ∧
     (∀ k, repr_to_biguint [5, 0] = 2 ^ k - 1 → get_num_bits [5, 0] = k)) :=
  ⟨by decide, get_num_bits_spec [5, 0] (by decide)⟩

end FranklinBigint
